import Mathlib

/-!
Verification of the HailoRT latency meter (src/hailort/common/latency_meter.hpp)
and of the network-group scheduler's declared constants and constructor
(src/hailort/libhailort/src/network_group_scheduler.hpp).

The latency meter is embedded shallowly: `std::chrono::nanoseconds` becomes
`Int` (a signed tick count; the additive accumulation stays far from the
64-bit range on the traces under study, so wrap-around of `+`/`-` is not
modelled, but the division inside `get_latency` — which C++ computes in the
*unsigned* common type of `int64_t` and `size_t` even when nothing
overflows — is modelled with its two modular conversions), and the per-channel
`std::unordered_map<uint32_t, TimestampsArray>` becomes an association list
`List (Nat × List Int)` whose key order is the (fixed) iteration order of the
map; every fold the code performs over the map (a running `max` and a
pop-front of every entry) is order-independent, so fixing an order loses
nothing.  The `CircularArray` timestamp buffers (common/circular_buffer.hpp,
which is not part of the sources under study) are modelled as unbounded
lists: every claim under study assumes no buffer ever overflows, and on
non-overflowing histories a fixed-capacity circular buffer and a plain list
behave identically, so the capacity argument of the constructor is carried
but unused.
-/

/-- `LatencyMeter::duration`, i.e. `std::chrono::nanoseconds` (a signed count). -/
abbrev duration : Type := Int

/-- State of `hailort::LatencyMeter`: the start-timestamp buffer, the
per-output-channel end-timestamp buffers, and the running accumulators
`m_latency_count` / `m_latency_sum`.  The mutex is concurrency-only and has
no functional content. -/
@[ext]
structure LatencyMeter where
  start_timestamps : List duration
  end_timestamps_per_channel : List (Nat × List duration)
  latency_count : Nat
  latency_sum : duration
deriving DecidableEq, Repr

/-- The `LatencyMeter(output_channels, timestamps_list_length)` constructor:
every supplied channel gets an empty end-timestamp buffer and the
accumulators start at zero.  `timestamps_list_length` is the circular-buffer
capacity, unused in the list model (see the file comment). -/
def makeLatencyMeter (output_channels : List Nat) (timestamps_list_length : Nat) :
    LatencyMeter :=
  { start_timestamps := []
    end_timestamps_per_channel := output_channels.map (fun ch => (ch, []))
    latency_count := 0
    latency_sum := 0 }

/-- The channel loop inside `LatencyMeter::update_latency`: walk the
per-channel buffers; if some buffer is empty return `none` ("wait for all
channel samples"), otherwise return the running `max` (seeded by the code
with `duration end(0)`) of the front elements. -/
def scanEnds : duration → List (Nat × List duration) → Option duration
  | e, [] => some e
  | _, (_, []) :: _ => none
  | e, (_, t :: _) :: rest => scanEnds (max e t) rest

/-- `LatencyMeter::update_latency`: if the start buffer is empty, or some
channel's end buffer is empty, do nothing; otherwise accumulate
`(end - start)` for the front sample (where `end` is the seeded max of the
channel fronts) and pop the start front and every channel front. -/
def update_latency (m : LatencyMeter) : LatencyMeter :=
  if m.start_timestamps.isEmpty then m
  else
    match scanEnds 0 m.end_timestamps_per_channel with
    | none => m
    | some e =>
      { start_timestamps := m.start_timestamps.tail
        end_timestamps_per_channel :=
          m.end_timestamps_per_channel.map (fun p => (p.1, p.2.tail))
        latency_count := m.latency_count + 1
        latency_sum := m.latency_sum + (e - m.start_timestamps.headD 0) }

/-- `LatencyMeter::add_start_sample`: push the timestamp onto the start
buffer, then run `update_latency`. -/
def add_start_sample (timestamp : duration) (m : LatencyMeter) : LatencyMeter :=
  update_latency { m with start_timestamps := m.start_timestamps ++ [timestamp] }

/-- Append a timestamp to the buffer of channel `ch` in the association
list; `none` if no entry for `ch` exists.  This models
`m_end_timestamps_per_channel.at(channel_index).push_back(timestamp)`
together with the preceding `assert` that the channel is present: for a
missing key the `assert` fires (debug) or `at` throws (release), in either
case before any mutation, which the model renders as `none`. -/
def pushEnd (ch : Nat) (t : duration) :
    List (Nat × List duration) → Option (List (Nat × List duration))
  | [] => none
  | (c, ts) :: rest =>
    if c = ch then some ((c, ts ++ [t]) :: rest)
    else (pushEnd ch t rest).map (fun r => (c, ts) :: r)

/-- `LatencyMeter::add_end_sample`: append the timestamp to the given
channel's buffer and run `update_latency`; fails (without mutating
anything) if the channel is not in the constructor-supplied set. -/
def add_end_sample (channel_index : Nat) (timestamp : duration) (m : LatencyMeter) :
    Option LatencyMeter :=
  (pushEnd channel_index timestamp m.end_timestamps_per_channel).map
    (fun em => update_latency { m with end_timestamps_per_channel := em })

/-- The `int64 -> uint64` conversion (modular, two's complement): the value
`std::chrono::duration::operator/` converts `m_latency_sum`'s `int64_t`
representation to, because `common_type_t<int64_t, size_t>` is `uint64_t`
on 64-bit targets. -/
def toUInt64Rep (x : Int) : Nat := (x % (2 ^ 64 : Int)).toNat

/-- The `uint64 -> int64` conversion (modular, two's complement) applied
when the unsigned quotient duration is converted back to
`std::chrono::nanoseconds` in `get_latency`'s return. -/
def ofUInt64Rep (n : Nat) : Int :=
  if n < 2 ^ 63 then (n : Int) else (n : Int) - 2 ^ 64

/-- `LatencyMeter::get_latency`: `none` (HAILO_NOT_AVAILABLE) when
`m_latency_count == 0`; otherwise `m_latency_sum / m_latency_count`,
resetting the accumulators when `clear` is set.  The `/` is
`chrono::duration<int64_t, nano> / size_t`, which C++ computes in the
common type `uint64_t` on 64-bit targets: the sum is converted modularly
to unsigned, divided, and the unsigned quotient converted back to the
signed `nanoseconds` rep — for `0 ≤ m_latency_sum < 2^63` this is plain
truncating division, for negative sums it wraps.  Returns the result
together with the successor state. -/
def get_latency (clear : Bool) (m : LatencyMeter) : Option duration × LatencyMeter :=
  if m.latency_count = 0 then (none, m)
  else
    let latency := ofUInt64Rep (toUInt64Rep m.latency_sum / m.latency_count)
    (some latency, if clear then { m with latency_sum := 0, latency_count := 0 } else m)

/-- One call into the latency meter's public interface. -/
inductive MeterOp where
  | addStart (t : duration)
  | addEnd (ch : Nat) (t : duration)
  | query (clear : Bool)
deriving DecidableEq, Repr

/-- Whether the call is a `get_latency` query. -/
def MeterOp.isQuery : MeterOp → Bool
  | .query _ => true
  | _ => false

/-- Whether the call, if it is an `add_end_sample`, carries a non-negative
timestamp (a decidable check used to instantiate the loop-agreement
theorem on concrete traces). -/
def MeterOp.hasNonnegEnd : MeterOp → Bool
  | .addEnd _ t => decide (0 ≤ t)
  | _ => true

/-- Run a sequence of latency-meter calls; `none` as soon as an
`add_end_sample` addresses an unknown channel. -/
def runMeter : List MeterOp → LatencyMeter → Option LatencyMeter
  | [], m => some m
  | .addStart t :: rest, m => runMeter rest (add_start_sample t m)
  | .addEnd ch t :: rest, m => (add_end_sample ch t m).bind (runMeter rest)
  | .query clear :: rest, m => runMeter rest (get_latency clear m).2

/-- Modelled from the spec: the fused end timestamp of §4.A's loop body,
"(max over channels of end_front)" — the maximum of the channel fronts with
*no* zero seed, i.e. the fold of `max` over the remaining fronts seeded
with the first channel's front.  `none` when some channel's buffer is
empty (the loop guard fails); for an empty channel map the spec's maximum
is undefined and the model makes the guard fail (the claims about the loop
are stated for non-empty channel sets). -/
def scanEndsSpec : List (Nat × List duration) → Option duration
  | [] => none
  | (_, []) :: _ => none
  | (_, t :: _) :: rest => scanEnds t rest

/-- Modelled from the spec: the correlation algorithm of §4.A phrased as a
loop — "while the start buffer and *every* channel's buffer are non-empty,
pop one start and the frontmost end of each channel; one sample's latency
is `(max over channels of end_front) - start_front`".  This is the
reference algorithm the single-pass `update_latency` is compared against
(claim C4); note its per-sample maximum is the spec's unseeded maximum
(`scanEndsSpec`), not the code's zero-seeded one. -/
def update_latency_loop (m : LatencyMeter) : LatencyMeter :=
  if h : m.start_timestamps.isEmpty then m
  else
    match scanEndsSpec m.end_timestamps_per_channel with
    | none => m
    | some e =>
      update_latency_loop
        { start_timestamps := m.start_timestamps.tail
          end_timestamps_per_channel :=
            m.end_timestamps_per_channel.map (fun p => (p.1, p.2.tail))
          latency_count := m.latency_count + 1
          latency_sum := m.latency_sum + (e - m.start_timestamps.headD 0) }
termination_by m.start_timestamps.length
decreasing_by
  have hne : m.start_timestamps ≠ [] := by
    simpa [List.isEmpty_iff] using h
  simp only [List.length_tail]
  have : 0 < m.start_timestamps.length := List.length_pos.mpr hne
  omega

/-- Modelled from the spec: `add_start_sample` driving the looping
correlation algorithm instead of the single-pass one. -/
def add_start_sample_loop (timestamp : duration) (m : LatencyMeter) : LatencyMeter :=
  update_latency_loop { m with start_timestamps := m.start_timestamps ++ [timestamp] }

/-- Modelled from the spec: `add_end_sample` driving the looping
correlation algorithm instead of the single-pass one. -/
def add_end_sample_loop (channel_index : Nat) (timestamp : duration) (m : LatencyMeter) :
    Option LatencyMeter :=
  (pushEnd channel_index timestamp m.end_timestamps_per_channel).map
    (fun em => update_latency_loop { m with end_timestamps_per_channel := em })

/-- Modelled from the spec: run a call sequence with the looping
correlation algorithm. -/
def runMeterLoop : List MeterOp → LatencyMeter → Option LatencyMeter
  | [], m => some m
  | .addStart t :: rest, m => runMeterLoop rest (add_start_sample_loop t m)
  | .addEnd ch t :: rest, m => (add_end_sample_loop ch t m).bind (runMeterLoop rest)
  | .query clear :: rest, m => runMeterLoop rest (get_latency clear m).2

/-- The key list of the per-channel map. -/
def meterKeys (m : LatencyMeter) : List Nat :=
  m.end_timestamps_per_channel.map Prod.fst

/-- The quiescent-state invariant of the meter (claim C8): no fully
matchable sample set is left unconsumed — the start buffer is empty or some
channel's end buffer is empty. -/
def MeterInv (m : LatencyMeter) : Prop :=
  m.start_timestamps = [] ∨ ∃ p ∈ m.end_timestamps_per_channel, p.2 = []

/-- All buffered end timestamps are non-negative.  On such states the
spec's unseeded per-sample maximum coincides with the code's zero-seeded
one, which is what makes the loop and the single pass agree (claim C4). -/
def MeterNonnegEnds (m : LatencyMeter) : Prop :=
  ∀ p ∈ m.end_timestamps_per_channel, ∀ x ∈ p.2, 0 ≤ x

/-- The start timestamps fed by a call sequence, in order. -/
def startsOf : List MeterOp → List duration
  | [] => []
  | .addStart t :: rest => t :: startsOf rest
  | .addEnd _ _ :: rest => startsOf rest
  | .query _ :: rest => startsOf rest

/-- The end timestamps fed on channel `ch` by a call sequence, in order. -/
def endsOf (ch : Nat) : List MeterOp → List duration
  | [] => []
  | .addStart _ :: rest => endsOf ch rest
  | .addEnd c t :: rest => if c = ch then t :: endsOf ch rest else endsOf ch rest
  | .query _ :: rest => endsOf ch rest

/-- Number of matched samples for start history `S` and per-channel end
history `E`: the minimum of the number of starts and of the number of ends
on each channel. -/
def matchedN (cs : List Nat) (S : List duration) (E : Nat → List duration) : Nat :=
  cs.foldl (fun a c => min a (E c).length) S.length

/-- The fused end timestamp of sample `i`: the maximum, seeded with 0 as in
`update_latency`, of the `i`-th end timestamp of every channel. -/
def maxEndAt (cs : List Nat) (E : Nat → List duration) (i : Nat) : duration :=
  cs.foldl (fun a c => max a ((E c).getD i 0)) 0

/-- Total latency of the first `n` matched samples:
`Σ_i (maxEndAt i - S_i)`. -/
def sumSamples (cs : List Nat) (S : List duration) (E : Nat → List duration) :
    Nat → duration
  | 0 => 0
  | n + 1 => sumSamples cs S E n + (maxEndAt cs E n - S.getD n 0)

/-- The meter state determined by the full histories: the first
`matchedN` samples are consumed into the accumulators and the buffers hold
the unmatched suffixes. -/
def canonicalMeter (cs : List Nat) (S : List duration) (E : Nat → List duration) :
    LatencyMeter :=
  { start_timestamps := S.drop (matchedN cs S E)
    end_timestamps_per_channel :=
      cs.map (fun c => (c, (E c).drop (matchedN cs S E)))
    latency_count := matchedN cs S E
    latency_sum := sumSamples cs S E (matchedN cs S E) }

/-! Network-group scheduler declarations
(src/hailort/libhailort/src/network_group_scheduler.hpp). -/

/-- `#define DEFAULT_SCHEDULER_TIMEOUT (std::chrono::milliseconds(0))`,
modelled as a millisecond count. -/
def DEFAULT_SCHEDULER_TIMEOUT : Nat := 0

/-- `#define DEFAULT_SCHEDULER_MIN_THRESHOLD (1)`. -/
def DEFAULT_SCHEDULER_MIN_THRESHOLD : Nat := 1

/-- `#define INVALID_NETWORK_GROUP_HANDLE (UINT32_MAX)`; handles are
`uint32_t`. -/
def INVALID_NETWORK_GROUP_HANDLE : Nat := 4294967295

/-- Modelled from the spec: `hailo_scheduling_algorithm_t` is declared in
hailo/hailort.h, which is not among the sources under study; only the
round-robin value (the one §4.D specifies and the one
`NetworkGroupSchedulerRoundRobin` passes) is needed. -/
inductive hailo_scheduling_algorithm_t where
  | HAILO_SCHEDULING_ALGORITHM_ROUND_ROBIN
deriving DecidableEq, Repr

/-- The members of `hailort::NetworkGroupScheduler` that its constructor
initializes.  The mutex, condition variable, containers and weak pointers
carry no initial scalar value and are omitted. -/
structure NetworkGroupScheduler where
  m_is_switching_network_group : Bool
  m_current_network_group : Nat
  m_next_network_group : Nat
  m_algorithm : hailo_scheduling_algorithm_t
  m_has_current_ng_finished : Bool
  m_is_currently_transferring_batch : Bool
  m_forced_idle_state : Bool
deriving DecidableEq, Repr

/-- The `NetworkGroupScheduler(algorithm)` constructor's initializer list. -/
def makeNetworkGroupScheduler (algorithm : hailo_scheduling_algorithm_t) :
    NetworkGroupScheduler :=
  { m_is_switching_network_group := true
    m_current_network_group := INVALID_NETWORK_GROUP_HANDLE
    m_next_network_group := INVALID_NETWORK_GROUP_HANDLE
    m_algorithm := algorithm
    m_has_current_ng_finished := true
    m_is_currently_transferring_batch := false
    m_forced_idle_state := false }

/-- `NetworkGroupSchedulerRoundRobin()` delegates to the base constructor
with the round-robin algorithm. -/
def makeNetworkGroupSchedulerRoundRobin : NetworkGroupScheduler :=
  makeNetworkGroupScheduler .HAILO_SCHEDULING_ALGORITHM_ROUND_ROBIN

/-! Concrete scenarios (spec §8, end-to-end scenario 4). -/

/-- The latency-correlation scenario of spec §8: starts at 100, 200, 300 ns,
ends on channel 7 at 150, 280, 360 ns and on channel 9 at 170, 260, 400 ns. -/
def opsScenario : List MeterOp :=
  [.addStart 100, .addStart 200, .addStart 300,
   .addEnd 7 150, .addEnd 9 170, .addEnd 7 280, .addEnd 9 260,
   .addEnd 7 360, .addEnd 9 400]

/-- The meter state reached by `opsScenario` on a meter with channels
`{7, 9}`: all samples matched, `latency_count = 3`, `latency_sum = 250`. -/
def meterScenario : LatencyMeter :=
  { start_timestamps := []
    end_timestamps_per_channel := [(7, []), (9, [])]
    latency_count := 3
    latency_sum := 250 }

/-- The meter state reached from a fresh meter with channel set `{1}` after
one start sample at 5 ns: the start waits for an end on channel 1. -/
def meterAfterStart : LatencyMeter :=
  { start_timestamps := [5]
    end_timestamps_per_channel := [(1, [])]
    latency_count := 0
    latency_sum := 0 }

/-! Generic lemmas about the `min`- and `max`-folds that `matchedN`,
`maxEndAt` and `scanEnds` perform over the channel list. -/

theorem foldl_min_le_init (g : Nat → Nat) (cs : List Nat) :
    ∀ init : Nat, cs.foldl (fun a c => min a (g c)) init ≤ init := by
  induction cs with
  | nil => intro init; simp
  | cons c0 cs ih =>
    intro init
    rw [List.foldl_cons]
    exact le_trans (ih (min init (g c0))) (min_le_left _ _)

theorem foldl_min_le_mem (g : Nat → Nat) (cs : List Nat) :
    ∀ init : Nat, ∀ c ∈ cs, cs.foldl (fun a x => min a (g x)) init ≤ g c := by
  induction cs with
  | nil => intro _ c hc; cases hc
  | cons c0 cs ih =>
    intro init c hc
    rw [List.foldl_cons]
    rcases List.mem_cons.mp hc with h | h
    · subst h
      exact le_trans (foldl_min_le_init g cs (min init (g c))) (min_le_right _ _)
    · exact ih _ c h

theorem le_foldl_min (g : Nat → Nat) (cs : List Nat) :
    ∀ init b : Nat, b ≤ init → (∀ c ∈ cs, b ≤ g c) →
      b ≤ cs.foldl (fun a x => min a (g x)) init := by
  induction cs with
  | nil => intro init b hb _; simpa using hb
  | cons c0 cs ih =>
    intro init b hb h
    rw [List.foldl_cons]
    exact ih _ b (le_min hb (h c0 (by simp))) (fun c hc => h c (List.mem_cons_of_mem _ hc))

theorem foldl_min_attains (g : Nat → Nat) (cs : List Nat) :
    ∀ init : Nat, cs.foldl (fun a x => min a (g x)) init = init ∨
      ∃ c ∈ cs, cs.foldl (fun a x => min a (g x)) init = g c := by
  induction cs with
  | nil => intro init; left; rfl
  | cons c0 cs ih =>
    intro init
    rw [List.foldl_cons]
    rcases ih (min init (g c0)) with h | ⟨c, hc, h⟩
    · rcases le_total init (g c0) with hle | hle
      · left; rw [h, min_eq_left hle]
      · right; exact ⟨c0, by simp, by rw [h, min_eq_right hle]⟩
    · right; exact ⟨c, List.mem_cons_of_mem _ hc, h⟩

theorem foldl_max_congr (g g' : Nat → duration) (cs : List Nat) :
    ∀ a : duration, (∀ c ∈ cs, g c = g' c) →
      cs.foldl (fun a x => max a (g x)) a = cs.foldl (fun a x => max a (g' x)) a := by
  induction cs with
  | nil => intro a _; rfl
  | cons c0 cs ih =>
    intro a h
    rw [List.foldl_cons, List.foldl_cons, h c0 (by simp)]
    exact ih _ (fun c hc => h c (List.mem_cons_of_mem _ hc))

/-! Facts about `matchedN`. -/

theorem matchedN_le_starts (cs : List Nat) (S : List duration) (E : Nat → List duration) :
    matchedN cs S E ≤ S.length :=
  foldl_min_le_init _ cs _

theorem matchedN_le_ends (cs : List Nat) (S : List duration) (E : Nat → List duration)
    {c : Nat} (hc : c ∈ cs) : matchedN cs S E ≤ (E c).length :=
  foldl_min_le_mem _ cs _ c hc

theorem le_matchedN (cs : List Nat) (S : List duration) (E : Nat → List duration)
    (b : Nat) (hS : b ≤ S.length) (hE : ∀ c ∈ cs, b ≤ (E c).length) :
    b ≤ matchedN cs S E :=
  le_foldl_min _ cs _ b hS hE

theorem matchedN_attains (cs : List Nat) (S : List duration) (E : Nat → List duration) :
    matchedN cs S E = S.length ∨ ∃ c ∈ cs, matchedN cs S E = (E c).length :=
  foldl_min_attains _ cs _

/-! Facts about `scanEnds`. -/

theorem scanEnds_eq_none_iff (l : List (Nat × List duration)) :
    ∀ e : duration, (scanEnds e l = none ↔ ∃ p ∈ l, p.2 = []) := by
  induction l with
  | nil => intro e; simp [scanEnds]
  | cons p rest ih =>
    intro e
    obtain ⟨c, ts⟩ := p
    cases ts with
    | nil => simp [scanEnds]
    | cons t ts' => simp [scanEnds, ih]

theorem scanEnds_map_eq (cs : List Nat) (f : Nat → List duration) :
    ∀ e : duration, (∀ c ∈ cs, f c ≠ []) →
      scanEnds e (cs.map (fun c => (c, f c))) =
        some (cs.foldl (fun a c => max a ((f c).headD 0)) e) := by
  induction cs with
  | nil => intro e _; simp [scanEnds]
  | cons c0 cs ih =>
    intro e h
    have hc : f c0 ≠ [] := h c0 (by simp)
    obtain ⟨t, ts, hts⟩ := List.exists_cons_of_ne_nil hc
    rw [List.map_cons, hts]
    show scanEnds (max e t) _ = _
    rw [ih (max e t) (fun c' h' => h c' (List.mem_cons_of_mem _ h'))]
    rw [List.foldl_cons, hts]
    rfl

theorem scanEndsSpec_of_empty_entry (l : List (Nat × List duration))
    (h : ∃ p ∈ l, p.2 = []) : scanEndsSpec l = none := by
  cases l with
  | nil => rfl
  | cons p rest =>
    obtain ⟨c, ts⟩ := p
    cases ts with
    | nil => rfl
    | cons t ts' =>
      obtain ⟨q, hq, hqnil⟩ := h
      rcases List.mem_cons.mp hq with h1 | h2
      · rw [h1] at hqnil
        simp at hqnil
      · show scanEnds t rest = none
        exact (scanEnds_eq_none_iff rest t).mpr ⟨q, h2, hqnil⟩

/-- On a non-empty channel map whose buffered timestamps are all
non-negative, the spec's unseeded maximum agrees with the code's
zero-seeded one. -/
theorem scanEndsSpec_eq (l : List (Nat × List duration)) (hne : l ≠ [])
    (hnn : ∀ p ∈ l, ∀ x ∈ p.2, 0 ≤ x) : scanEndsSpec l = scanEnds 0 l := by
  cases l with
  | nil => exact absurd rfl hne
  | cons p rest =>
    obtain ⟨c, ts⟩ := p
    cases ts with
    | nil => rfl
    | cons t ts' =>
      show scanEnds t rest = scanEnds (max 0 t) rest
      rw [max_eq_right (hnn (c, t :: ts') (List.mem_cons_self _ _) t (List.mem_cons_self _ _))]

/-- `headD` of a dropped suffix is `getD` of the original list. -/
theorem headD_drop (l : List duration) (n : Nat) (h : n < l.length) :
    (l.drop n).headD 0 = l.getD n 0 := by
  rw [List.drop_eq_getElem_cons h, List.getD_eq_getElem?_getD, List.getElem?_eq_getElem h]
  rfl

/-! Facts about `pushEnd`. -/

theorem pushEnd_eq_none_of_not_mem (ch : Nat) (t : duration) :
    ∀ l : List (Nat × List duration), ch ∉ l.map Prod.fst → pushEnd ch t l = none := by
  intro l
  induction l with
  | nil => intro _; rfl
  | cons p rest ih =>
    intro h
    obtain ⟨c, ts⟩ := p
    simp only [List.map_cons, List.mem_cons, not_or] at h
    obtain ⟨h1, h2⟩ := h
    simp only [pushEnd]
    rw [if_neg (fun hc => h1 hc.symm), ih h2]
    rfl

theorem pushEnd_some_decomp (ch : Nat) (t : duration) :
    ∀ l l' : List (Nat × List duration), pushEnd ch t l = some l' →
      ∃ l₁ ts l₂, l = l₁ ++ (ch, ts) :: l₂ ∧ (∀ p ∈ l₁, p.1 ≠ ch) ∧
        l' = l₁ ++ (ch, ts ++ [t]) :: l₂ := by
  intro l
  induction l with
  | nil => intro l' h; simp [pushEnd] at h
  | cons p rest ih =>
    intro l' h
    obtain ⟨c, ts⟩ := p
    by_cases hc : c = ch
    · subst hc
      simp only [pushEnd, if_true, eq_self_iff_true, Option.some_inj] at h
      exact ⟨[], ts, rest, rfl, by simp, h.symm⟩
    · simp only [pushEnd, if_neg hc] at h
      cases hr : pushEnd ch t rest with
      | none => rw [hr] at h; simp at h
      | some r =>
        rw [hr] at h
        simp only [Option.map_some', Option.some_inj] at h
        obtain ⟨l₁, ts₀, l₂, he, hk, hr'⟩ := ih r hr
        refine ⟨(c, ts) :: l₁, ts₀, l₂, by simp [he], ?_, by simp [← h, hr']⟩
        intro p hp
        rcases List.mem_cons.mp hp with h' | h'
        · rw [h']; exact hc
        · exact hk p h'

theorem pushEnd_keys (ch : Nat) (t : duration) (l l' : List (Nat × List duration))
    (h : pushEnd ch t l = some l') :
    l'.map Prod.fst = l.map Prod.fst ∧ ch ∈ l.map Prod.fst := by
  obtain ⟨l₁, ts, l₂, he, _, hr⟩ := pushEnd_some_decomp ch t l l' h
  subst he
  subst hr
  constructor
  · simp
  · simp

theorem pushEnd_map_of_nodup (t : duration) (f : Nat → List duration) :
    ∀ cs : List Nat, cs.Nodup → ∀ ch ∈ cs,
      pushEnd ch t (cs.map (fun c => (c, f c))) =
        some (cs.map (fun c => (c, if c = ch then f c ++ [t] else f c))) := by
  intro cs
  induction cs with
  | nil => intro _ ch hch; cases hch
  | cons c0 cs ih =>
    intro hnd ch hch
    have hnd0 : c0 ∉ cs := (List.nodup_cons.mp hnd).1
    have hnd' : cs.Nodup := (List.nodup_cons.mp hnd).2
    rcases List.mem_cons.mp hch with h | h
    · subst h
      have hmap : List.map (fun c => (c, if c = ch then f c ++ [t] else f c)) cs
          = List.map (fun c => (c, f c)) cs := by
        apply List.map_congr_left
        intro c hc
        rw [if_neg (fun he => hnd0 (by rw [he] at hc; exact hc))]
      simp [pushEnd, hmap]
    · have hc0 : c0 ≠ ch := fun he => hnd0 (by rw [he]; exact h)
      simp only [List.map_cons, pushEnd]
      rw [if_neg hc0, ih hnd' ch h]
      simp [hc0]

/-! Unfolding lemmas for the two correlation procedures. -/

theorem update_latency_of_start_empty (m : LatencyMeter)
    (h : m.start_timestamps = []) : update_latency m = m := by
  simp [update_latency, h]

theorem update_latency_of_scan_none (m : LatencyMeter)
    (h : scanEnds 0 m.end_timestamps_per_channel = none) : update_latency m = m := by
  by_cases hs : m.start_timestamps.isEmpty
  · simp [update_latency, hs]
  · simp [update_latency, hs, h]

theorem update_latency_fire (m : LatencyMeter) (hs : ¬ m.start_timestamps.isEmpty = true)
    (e : duration) (h : scanEnds 0 m.end_timestamps_per_channel = some e) :
    update_latency m =
      { start_timestamps := m.start_timestamps.tail
        end_timestamps_per_channel :=
          m.end_timestamps_per_channel.map (fun p => (p.1, p.2.tail))
        latency_count := m.latency_count + 1
        latency_sum := m.latency_sum + (e - m.start_timestamps.headD 0) } := by
  simp [update_latency, hs, h]

theorem update_latency_loop_of_start_empty (m : LatencyMeter)
    (h : m.start_timestamps = []) : update_latency_loop m = m := by
  rw [update_latency_loop]
  simp [h]

theorem update_latency_loop_of_spec_none (m : LatencyMeter)
    (h : scanEndsSpec m.end_timestamps_per_channel = none) : update_latency_loop m = m := by
  rw [update_latency_loop]
  by_cases hs : m.start_timestamps.isEmpty
  · simp [hs]
  · simp [hs, h]

theorem update_latency_loop_fire (m : LatencyMeter)
    (hs : ¬ m.start_timestamps.isEmpty = true)
    (e : duration) (h : scanEndsSpec m.end_timestamps_per_channel = some e) :
    update_latency_loop m =
      update_latency_loop
        { start_timestamps := m.start_timestamps.tail
          end_timestamps_per_channel :=
            m.end_timestamps_per_channel.map (fun p => (p.1, p.2.tail))
          latency_count := m.latency_count + 1
          latency_sum := m.latency_sum + (e - m.start_timestamps.headD 0) } := by
  conv_lhs => rw [update_latency_loop]
  simp [hs, h]

/-! Congruence lemmas for the sample-sum. -/

theorem maxEndAt_congr (cs : List Nat) (E E' : Nat → List duration) (i : Nat)
    (h : ∀ c ∈ cs, (E c).getD i 0 = (E' c).getD i 0) :
    maxEndAt cs E i = maxEndAt cs E' i :=
  foldl_max_congr (fun c => (E c).getD i 0) (fun c => (E' c).getD i 0) cs 0 h

theorem sumSamples_congr (cs : List Nat) (S S' : List duration)
    (E E' : Nat → List duration) :
    ∀ n : Nat, (∀ i < n, S.getD i 0 = S'.getD i 0) →
      (∀ c ∈ cs, ∀ i < n, (E c).getD i 0 = (E' c).getD i 0) →
      sumSamples cs S E n = sumSamples cs S' E' n := by
  intro n
  induction n with
  | zero => intro _ _; rfl
  | succ n ih =>
    intro hS hE
    show sumSamples cs S E n + (maxEndAt cs E n - S.getD n 0)
        = sumSamples cs S' E' n + (maxEndAt cs E' n - S'.getD n 0)
    rw [ih (fun i hi => hS i (Nat.lt_succ_of_lt hi))
          (fun c hc i hi => hE c hc i (Nat.lt_succ_of_lt hi)),
        hS n (Nat.lt_succ_self n),
        maxEndAt_congr cs E E' n (fun c hc => hE c hc n (Nat.lt_succ_self n))]

/-- Pushing a start sample onto the canonical state of histories `(S, E)`
yields the canonical state of `(S ++ [t], E)`. -/
theorem add_start_canonical (cs : List Nat) (S : List duration)
    (E : Nat → List duration) (t : duration) :
    add_start_sample t (canonicalMeter cs S E) = canonicalMeter cs (S ++ [t]) E := by
  have hN_le : matchedN cs S E ≤ S.length := matchedN_le_starts cs S E
  have hN_ends : ∀ c ∈ cs, matchedN cs S E ≤ (E c).length :=
    fun c hc => matchedN_le_ends cs S E hc
  by_cases hall : ∀ c ∈ cs, matchedN cs S E < (E c).length
  · -- every channel has an unmatched end: the new start fires one sample
    have hNS : matchedN cs S E = S.length := by
      rcases matchedN_attains cs S E with h | ⟨c, hc, h⟩
      · exact h
      · have := hall c hc
        rw [h] at this
        exact absurd this (lt_irrefl _)
    have hdropS : S.drop (matchedN cs S E) = [] := by
      rw [hNS, List.drop_length]
    have hne : ∀ c ∈ cs, (E c).drop (matchedN cs S E) ≠ [] := by
      intro c hc
      have hlt := hall c hc
      have hpos : 0 < ((E c).drop (matchedN cs S E)).length := by
        rw [List.length_drop]
        omega
      exact List.length_pos.mp hpos
    have hscan : scanEnds 0 (cs.map (fun c => (c, (E c).drop (matchedN cs S E))))
        = some (maxEndAt cs E (matchedN cs S E)) := by
      rw [scanEnds_map_eq cs _ 0 hne]
      congr 1
      exact foldl_max_congr _ _ cs 0
        (fun c hc => headD_drop (E c) (matchedN cs S E) (hall c hc))
    have hN' : matchedN cs (S ++ [t]) E = matchedN cs S E + 1 := by
      have hle : matchedN cs (S ++ [t]) E ≤ matchedN cs S E + 1 := by
        have h1 := matchedN_le_starts cs (S ++ [t]) E
        rw [List.length_append, ← hNS] at h1
        simpa using h1
      have hge : matchedN cs S E + 1 ≤ matchedN cs (S ++ [t]) E := by
        refine le_matchedN cs (S ++ [t]) E _ ?_ ?_
        · simp only [List.length_append, List.length_cons, List.length_nil]
          omega
        · intro c hc
          exact hall c hc
      omega
    show update_latency _ = _
    rw [update_latency_fire _ (by simp [canonicalMeter, hdropS])
          (maxEndAt cs E (matchedN cs S E)) (by simpa [canonicalMeter] using hscan)]
    have hgetD : (S ++ [t]).getD (matchedN cs S E) 0 = t := by
      rw [List.getD_append_right S [t] 0 _ (le_of_eq hNS.symm), hNS]
      simp
    have hsum : sumSamples cs (S ++ [t]) E (matchedN cs S E)
        = sumSamples cs S E (matchedN cs S E) := by
      refine sumSamples_congr cs (S ++ [t]) S E E _ ?_ (fun c hc i hi => rfl)
      intro i hi
      exact List.getD_append S [t] 0 i (lt_of_lt_of_le hi hN_le)
    refine LatencyMeter.ext ?_ ?_ ?_ ?_
    · show (S.drop (matchedN cs S E) ++ [t]).tail
          = (S ++ [t]).drop (matchedN cs (S ++ [t]) E)
      rw [hN', hdropS,
        show matchedN cs S E + 1 = (S ++ [t]).length by simp [hNS], List.drop_length]
      rfl
    · show (cs.map (fun c => (c, (E c).drop (matchedN cs S E)))).map
            (fun p => (p.1, p.2.tail))
          = cs.map (fun c => (c, (E c).drop (matchedN cs (S ++ [t]) E)))
      rw [hN', List.map_map]
      refine List.map_congr_left ?_
      intro c hc
      show (c, ((E c).drop (matchedN cs S E)).tail) = (c, (E c).drop (matchedN cs S E + 1))
      rw [List.tail_drop]
    · show matchedN cs S E + 1 = matchedN cs (S ++ [t]) E
      omega
    · show sumSamples cs S E (matchedN cs S E)
          + (maxEndAt cs E (matchedN cs S E) - (S.drop (matchedN cs S E) ++ [t]).headD 0)
        = sumSamples cs (S ++ [t]) E (matchedN cs (S ++ [t]) E)
      rw [hN', hdropS]
      show sumSamples cs S E (matchedN cs S E)
          + (maxEndAt cs E (matchedN cs S E) - t)
        = sumSamples cs (S ++ [t]) E (matchedN cs S E)
          + (maxEndAt cs E (matchedN cs S E) - (S ++ [t]).getD (matchedN cs S E) 0)
      rw [hgetD, hsum]
  · -- some channel is fully matched: update_latency waits
    push_neg at hall
    obtain ⟨c0, hc0, hc0len⟩ := hall
    have hc0N : (E c0).length = matchedN cs S E := le_antisymm hc0len (hN_ends c0 hc0)
    have hdrop0 : (E c0).drop (matchedN cs S E) = [] := by
      rw [← hc0N, List.drop_length]
    have hscan : scanEnds 0 (cs.map (fun c => (c, (E c).drop (matchedN cs S E)))) = none := by
      rw [scanEnds_eq_none_iff]
      exact ⟨(c0, (E c0).drop (matchedN cs S E)), List.mem_map_of_mem _ hc0, hdrop0⟩
    have hN' : matchedN cs (S ++ [t]) E = matchedN cs S E := by
      have hle : matchedN cs (S ++ [t]) E ≤ matchedN cs S E := by
        have h1 := matchedN_le_ends cs (S ++ [t]) E hc0
        omega
      have hge : matchedN cs S E ≤ matchedN cs (S ++ [t]) E := by
        refine le_matchedN cs (S ++ [t]) E _ ?_ hN_ends
        rw [List.length_append]
        omega
      omega
    have hsum : sumSamples cs (S ++ [t]) E (matchedN cs S E)
        = sumSamples cs S E (matchedN cs S E) := by
      refine sumSamples_congr cs (S ++ [t]) S E E _ ?_ (fun c hc i hi => rfl)
      intro i hi
      exact List.getD_append S [t] 0 i (lt_of_lt_of_le hi hN_le)
    show update_latency _ = _
    rw [update_latency_of_scan_none _ (by simpa [canonicalMeter] using hscan)]
    refine LatencyMeter.ext ?_ ?_ ?_ ?_
    · show S.drop (matchedN cs S E) ++ [t]
          = (S ++ [t]).drop (matchedN cs (S ++ [t]) E)
      rw [hN', List.drop_append_of_le_length hN_le]
    · show cs.map (fun c => (c, (E c).drop (matchedN cs S E)))
          = cs.map (fun c => (c, (E c).drop (matchedN cs (S ++ [t]) E)))
      rw [hN']
    · show matchedN cs S E = matchedN cs (S ++ [t]) E
      omega
    · show sumSamples cs S E (matchedN cs S E)
        = sumSamples cs (S ++ [t]) E (matchedN cs (S ++ [t]) E)
      rw [hN', hsum]

/-- Pushing an end sample (on a registered channel) onto the canonical
state of histories `(S, E)` yields the canonical state of `(S, E[ch ++= t])`. -/
theorem add_end_canonical (cs : List Nat) (hnd : cs.Nodup) (S : List duration)
    (E : Nat → List duration) (ch : Nat) (hch : ch ∈ cs) (t : duration) :
    add_end_sample ch t (canonicalMeter cs S E) =
      some (canonicalMeter cs S (fun c => if c = ch then E c ++ [t] else E c)) := by
  set E' : Nat → List duration := fun c => if c = ch then E c ++ [t] else E c with hE'
  have hN_le : matchedN cs S E ≤ S.length := matchedN_le_starts cs S E
  have hN_ends : ∀ c ∈ cs, matchedN cs S E ≤ (E c).length :=
    fun c hc => matchedN_le_ends cs S E hc
  have hE'_ge : ∀ c ∈ cs, matchedN cs S E ≤ (E' c).length := by
    intro c hc
    by_cases h : c = ch
    · simp only [hE', h, if_pos rfl, List.length_append]
      have := hN_ends c hc
      rw [h] at this
      simp only [List.length_cons, List.length_nil]
      omega
    · simp only [hE', if_neg h]
      exact hN_ends c hc
  have hE'_getD : ∀ c ∈ cs, ∀ i < matchedN cs S E, (E c).getD i 0 = (E' c).getD i 0 := by
    intro c hc i hi
    by_cases h : c = ch
    · simp only [hE', h, if_pos rfl]
      rw [List.getD_append]
      have := hN_ends c hc
      rw [h] at this
      omega
    · simp only [hE', if_neg h]
  have hsum : sumSamples cs S E' (matchedN cs S E) = sumSamples cs S E (matchedN cs S E) :=
    sumSamples_congr cs S S E' E _ (fun i _ => rfl)
      (fun c hc i hi => (hE'_getD c hc i hi).symm)
  have hpush := pushEnd_map_of_nodup t (fun c => (E c).drop (matchedN cs S E)) cs hnd ch hch
  have hmap : cs.map (fun c => (c, if c = ch
          then (E c).drop (matchedN cs S E) ++ [t] else (E c).drop (matchedN cs S E)))
      = cs.map (fun c => (c, (E' c).drop (matchedN cs S E))) := by
    refine List.map_congr_left ?_
    intro c hc
    by_cases h : c = ch
    · subst h
      simp only [eq_self_iff_true, if_true, hE']
      rw [List.drop_append_of_le_length (hN_ends c hc)]
    · simp only [if_neg h, hE']
  show (pushEnd ch t (cs.map (fun c => (c, (E c).drop (matchedN cs S E))))).map _ = _
  rw [hpush, hmap, Option.map_some']
  congr 1
  -- it remains to show the update of the pushed state is canonical for (S, E')
  by_cases hS : S.drop (matchedN cs S E) = []
  · -- no start pending: update_latency waits
    have hNS : matchedN cs S E = S.length := by
      have h0 : (S.drop (matchedN cs S E)).length = 0 := by rw [hS]; rfl
      rw [List.length_drop] at h0
      omega
    have hN' : matchedN cs S E' = matchedN cs S E := by
      have hle : matchedN cs S E' ≤ matchedN cs S E := by
        have := matchedN_le_starts cs S E'
        omega
      have hge : matchedN cs S E ≤ matchedN cs S E' :=
        le_matchedN cs S E' _ hN_le hE'_ge
      omega
    rw [update_latency_of_start_empty _ (by simpa [canonicalMeter] using hS)]
    refine LatencyMeter.ext ?_ ?_ ?_ ?_
    · show S.drop (matchedN cs S E) = S.drop (matchedN cs S E')
      rw [hN']
    · show cs.map (fun c => (c, (E' c).drop (matchedN cs S E)))
          = cs.map (fun c => (c, (E' c).drop (matchedN cs S E')))
      rw [hN']
    · show matchedN cs S E = matchedN cs S E'
      omega
    · show sumSamples cs S E (matchedN cs S E) = sumSamples cs S E' (matchedN cs S E')
      rw [hN', hsum]
  · -- a start is pending
    have hS_lt : matchedN cs S E < S.length := by
      have h0 : 0 < (S.drop (matchedN cs S E)).length := List.length_pos.mpr hS
      rw [List.length_drop] at h0
      omega
    by_cases hother : ∀ c1 ∈ cs, c1 ≠ ch → matchedN cs S E < (E c1).length
    · -- every other channel also has a pending end: this push fires a sample
      have hchN : (E ch).length = matchedN cs S E := by
        rcases matchedN_attains cs S E with h | ⟨c0, hc0, h⟩
        · omega
        · by_cases hc0ch : c0 = ch
          · rw [← hc0ch]; omega
          · have := hother c0 hc0 hc0ch
            omega
      have hall' : ∀ c ∈ cs, matchedN cs S E < (E' c).length := by
        intro c hc
        by_cases h : c = ch
        · simp only [hE', h, if_pos rfl, List.length_append, List.length_cons,
            List.length_nil]
          have := hN_ends ch hch
          omega
        · simp only [hE', if_neg h]
          exact hother c hc h
      have hne : ∀ c ∈ cs, (E' c).drop (matchedN cs S E) ≠ [] := by
        intro c hc
        have hpos : 0 < ((E' c).drop (matchedN cs S E)).length := by
          rw [List.length_drop]
          have := hall' c hc
          omega
        exact List.length_pos.mp hpos
      have hscan : scanEnds 0 (cs.map (fun c => (c, (E' c).drop (matchedN cs S E))))
          = some (maxEndAt cs E' (matchedN cs S E)) := by
        rw [scanEnds_map_eq cs _ 0 hne]
        congr 1
        exact foldl_max_congr _ _ cs 0
          (fun c hc => headD_drop (E' c) (matchedN cs S E) (hall' c hc))
      have hN' : matchedN cs S E' = matchedN cs S E + 1 := by
        have hle : matchedN cs S E' ≤ matchedN cs S E + 1 := by
          have h1 := matchedN_le_ends cs S E' hch
          have h2 : (E' ch).length = matchedN cs S E + 1 := by
            simp only [hE', if_pos rfl, List.length_append, List.length_cons,
              List.length_nil]
            omega
          omega
        have hge : matchedN cs S E + 1 ≤ matchedN cs S E' := by
          refine le_matchedN cs S E' _ (by omega) ?_
          intro c hc
          exact hall' c hc
        omega
      rw [update_latency_fire _
            (by simpa [canonicalMeter, List.isEmpty_iff] using hS)
            (maxEndAt cs E' (matchedN cs S E)) (by simpa using hscan)]
      refine LatencyMeter.ext ?_ ?_ ?_ ?_
      · show (S.drop (matchedN cs S E)).tail = S.drop (matchedN cs S E')
        rw [List.tail_drop, hN']
      · show (cs.map (fun c => (c, (E' c).drop (matchedN cs S E)))).map
              (fun p => (p.1, p.2.tail))
            = cs.map (fun c => (c, (E' c).drop (matchedN cs S E')))
        rw [hN', List.map_map]
        refine List.map_congr_left ?_
        intro c hc
        show (c, ((E' c).drop (matchedN cs S E)).tail)
            = (c, (E' c).drop (matchedN cs S E + 1))
        rw [List.tail_drop]
      · show matchedN cs S E + 1 = matchedN cs S E'
        omega
      · show sumSamples cs S E (matchedN cs S E)
            + (maxEndAt cs E' (matchedN cs S E) - (S.drop (matchedN cs S E)).headD 0)
          = sumSamples cs S E' (matchedN cs S E')
        rw [hN', headD_drop S _ hS_lt]
        show sumSamples cs S E (matchedN cs S E)
            + (maxEndAt cs E' (matchedN cs S E) - S.getD (matchedN cs S E) 0)
          = sumSamples cs S E' (matchedN cs S E)
            + (maxEndAt cs E' (matchedN cs S E) - S.getD (matchedN cs S E) 0)
        rw [hsum]
    · -- some *other* channel is fully matched: update_latency still waits
      push_neg at hother
      obtain ⟨c1, hc1, hc1ch, hc1len⟩ := hother
      have hc1N : (E c1).length = matchedN cs S E := le_antisymm hc1len (hN_ends c1 hc1)
      have hdrop1 : (E' c1).drop (matchedN cs S E) = [] := by
        simp only [hE', if_neg hc1ch]
        rw [← hc1N, List.drop_length]
      have hscan : scanEnds 0 (cs.map (fun c => (c, (E' c).drop (matchedN cs S E))))
          = none := by
        rw [scanEnds_eq_none_iff]
        exact ⟨(c1, (E' c1).drop (matchedN cs S E)), List.mem_map_of_mem _ hc1, hdrop1⟩
      have hN' : matchedN cs S E' = matchedN cs S E := by
        have hle : matchedN cs S E' ≤ matchedN cs S E := by
          have h1 := matchedN_le_ends cs S E' hc1
          have h2 : (E' c1).length = matchedN cs S E := by
            simp only [hE', if_neg hc1ch]
            exact hc1N
          omega
        have hge : matchedN cs S E ≤ matchedN cs S E' :=
          le_matchedN cs S E' _ hN_le hE'_ge
        omega
      rw [update_latency_of_scan_none _ (by simpa using hscan)]
      refine LatencyMeter.ext ?_ ?_ ?_ ?_
      · show S.drop (matchedN cs S E) = S.drop (matchedN cs S E')
        rw [hN']
      · show cs.map (fun c => (c, (E' c).drop (matchedN cs S E)))
            = cs.map (fun c => (c, (E' c).drop (matchedN cs S E')))
        rw [hN']
      · show matchedN cs S E = matchedN cs S E'
        omega
      · show sumSamples cs S E (matchedN cs S E) = sumSamples cs S E' (matchedN cs S E')
        rw [hN', hsum]

/-! From the canonical-step lemmas to whole call sequences. -/

theorem matchedN_nil_starts (cs : List Nat) (E : Nat → List duration) :
    matchedN cs [] E = 0 :=
  Nat.le_zero.mp (by simpa using foldl_min_le_init (fun c => (E c).length) cs 0)

theorem make_eq_canonical (cs : List Nat) (k : Nat) :
    makeLatencyMeter cs k = canonicalMeter cs [] (fun _ => []) := by
  refine LatencyMeter.ext ?_ ?_ ?_ ?_
  · show ([] : List duration) = List.drop (matchedN cs [] (fun _ => [])) []
    rw [matchedN_nil_starts]
    rfl
  · show cs.map (fun ch => (ch, ([] : List duration)))
        = cs.map (fun c => (c, List.drop (matchedN cs [] (fun _ => [])) []))
    rw [matchedN_nil_starts]
    rfl
  · show 0 = matchedN cs [] (fun _ => [])
    rw [matchedN_nil_starts]
  · show (0 : duration) = sumSamples cs [] (fun _ => []) (matchedN cs [] (fun _ => []))
    rw [matchedN_nil_starts]
    rfl

theorem runMeter_canonical (cs : List Nat) (hnd : cs.Nodup) :
    ∀ ops : List MeterOp, (∀ c t, MeterOp.addEnd c t ∈ ops → c ∈ cs) →
      (∀ op ∈ ops, op.isQuery = false) →
      ∀ (S : List duration) (E : Nat → List duration),
        runMeter ops (canonicalMeter cs S E) =
          some (canonicalMeter cs (S ++ startsOf ops) (fun c => E c ++ endsOf c ops)) := by
  intro ops
  induction ops with
  | nil =>
    intro _ _ S E
    simp [runMeter, startsOf, endsOf]
  | cons op rest ih =>
    intro hv hq S E
    cases op with
    | addStart t =>
      show runMeter rest (add_start_sample t (canonicalMeter cs S E)) = _
      rw [add_start_canonical,
        ih (fun c t' hmem => hv c t' (List.mem_cons_of_mem _ hmem))
          (fun o ho => hq o (List.mem_cons_of_mem _ ho)) (S ++ [t]) E]
      congr 1
      rw [List.append_assoc]
      rfl
    | addEnd ch t =>
      have hch : ch ∈ cs := hv ch t (List.mem_cons_self _ _)
      show (add_end_sample ch t (canonicalMeter cs S E)).bind (runMeter rest) = _
      rw [add_end_canonical cs hnd S E ch hch t]
      show runMeter rest
          (canonicalMeter cs S (fun c => if c = ch then E c ++ [t] else E c)) = _
      rw [ih (fun c t' hmem => hv c t' (List.mem_cons_of_mem _ hmem))
            (fun o ho => hq o (List.mem_cons_of_mem _ ho)) S _]
      congr 1
      have hE : (fun c => (if c = ch then E c ++ [t] else E c) ++ endsOf c rest)
          = (fun c => E c ++ endsOf c (MeterOp.addEnd ch t :: rest)) := by
        funext c
        by_cases h : c = ch
        · subst h
          simp [endsOf, List.append_assoc]
        · simp [endsOf, h, Ne.symm h]
      rw [hE]
      rfl
    | query clear =>
      exact absurd (hq _ (List.mem_cons_self _ _)) (by simp [MeterOp.isQuery])

theorem runMeter_make (cs : List Nat) (hnd : cs.Nodup) (k : Nat) (ops : List MeterOp)
    (hv : ∀ c t, MeterOp.addEnd c t ∈ ops → c ∈ cs)
    (hq : ∀ op ∈ ops, op.isQuery = false) :
    runMeter ops (makeLatencyMeter cs k) =
      some (canonicalMeter cs (startsOf ops) (fun c => endsOf c ops)) := by
  rw [make_eq_canonical, runMeter_canonical cs hnd ops hv hq [] (fun _ => [])]
  rfl

/-! Preservation of the channel-key list by every operation. -/

theorem meterKeys_update_latency (m : LatencyMeter) :
    meterKeys (update_latency m) = meterKeys m := by
  by_cases hs : m.start_timestamps.isEmpty
  · simp [update_latency, hs]
  · cases hscan : scanEnds 0 m.end_timestamps_per_channel with
    | none => simp [update_latency, hs, hscan]
    | some e =>
      simp [update_latency, hs, hscan, meterKeys, List.map_map, Function.comp]

theorem meterKeys_add_start (t : duration) (m : LatencyMeter) :
    meterKeys (add_start_sample t m) = meterKeys m := by
  show meterKeys (update_latency _) = _
  rw [meterKeys_update_latency]
  rfl

theorem meterKeys_add_end (ch : Nat) (t : duration) (m m' : LatencyMeter)
    (h : add_end_sample ch t m = some m') :
    meterKeys m' = meterKeys m ∧ ch ∈ meterKeys m := by
  obtain ⟨em, hem, hm'⟩ := Option.map_eq_some'.mp h
  obtain ⟨hkeys, hmem⟩ := pushEnd_keys ch t _ em hem
  constructor
  · rw [← hm', meterKeys_update_latency]
    exact hkeys
  · exact hmem

theorem meterKeys_get_latency (clear : Bool) (m : LatencyMeter) :
    meterKeys (get_latency clear m).2 = meterKeys m := by
  by_cases h : m.latency_count = 0
  · simp [get_latency, h]
  · cases clear <;> simp [get_latency, h, meterKeys]

theorem runMeter_some_keys :
    ∀ (ops : List MeterOp) (m m' : LatencyMeter), runMeter ops m = some m' →
      meterKeys m' = meterKeys m ∧
        ∀ c t, MeterOp.addEnd c t ∈ ops → c ∈ meterKeys m := by
  intro ops
  induction ops with
  | nil =>
    intro m m' h
    obtain rfl : m = m' := Option.some_inj.mp h
    exact ⟨rfl, fun c t hmem => absurd hmem (List.not_mem_nil _)⟩
  | cons op rest ih =>
    intro m m' h
    cases op with
    | addStart t =>
      obtain ⟨hk, hv⟩ := ih (add_start_sample t m) m' h
      refine ⟨hk.trans (meterKeys_add_start t m), ?_⟩
      intro c t' hmem
      rcases List.mem_cons.mp hmem with h' | h'
      · cases h'
      · rw [← meterKeys_add_start t m]
        exact hv c t' h'
    | addEnd ch t =>
      obtain ⟨m₁, hm₁, hrest⟩ := Option.bind_eq_some.mp h
      obtain ⟨hk₁, hch⟩ := meterKeys_add_end ch t m m₁ hm₁
      obtain ⟨hk, hv⟩ := ih m₁ m' hrest
      refine ⟨hk.trans hk₁, ?_⟩
      intro c t' hmem
      rcases List.mem_cons.mp hmem with h' | h'
      · cases h'
        exact hch
      · rw [← hk₁]
        exact hv c t' h'
    | query clear =>
      obtain ⟨hk, hv⟩ := ih (get_latency clear m).2 m' h
      refine ⟨hk.trans (meterKeys_get_latency clear m), ?_⟩
      intro c t' hmem
      rcases List.mem_cons.mp hmem with h' | h'
      · cases h'
      · rw [← meterKeys_get_latency clear m]
        exact hv c t' h'

theorem meterKeys_make (cs : List Nat) (k : Nat) :
    meterKeys (makeLatencyMeter cs k) = cs := by
  simp only [meterKeys, makeLatencyMeter, List.map_map]
  have hid : (Prod.fst ∘ fun ch : Nat => (ch, ([] : List duration))) = id := by
    funext ch
    rfl
  rw [hid, List.map_id]

/-! The quiescent invariant `MeterInv` and the non-negativity predicate
`MeterNonnegEnds` are preserved by every call; on states satisfying them
(with a non-empty channel map) the spec's looping correlation algorithm
agrees with the single-pass one. -/

theorem meterInv_add_start (t : duration) (m : LatencyMeter) (hInv : MeterInv m) :
    MeterInv (add_start_sample t m) := by
  by_cases hemp : ∃ p ∈ m.end_timestamps_per_channel, p.2 = []
  · have hscan : scanEnds 0 m.end_timestamps_per_channel = none :=
      (scanEnds_eq_none_iff _ 0).mpr hemp
    show MeterInv (update_latency _)
    rw [update_latency_of_scan_none
          { m with start_timestamps := m.start_timestamps ++ [t] } hscan]
    exact Or.inr hemp
  · have hstart : m.start_timestamps = [] := by
      rcases hInv with h | h
      · exact h
      · exact absurd h hemp
    cases hscan : scanEnds 0 m.end_timestamps_per_channel with
    | none => exact absurd ((scanEnds_eq_none_iff _ 0).mp hscan) hemp
    | some e =>
      have hsne : ¬ ({ m with start_timestamps := m.start_timestamps ++ [t] }
          : LatencyMeter).start_timestamps.isEmpty = true := by
        simp [hstart]
      have htail : (m.start_timestamps ++ [t]).tail = [] := by
        rw [hstart]
        rfl
      show MeterInv (update_latency _)
      rw [update_latency_fire _ hsne e hscan]
      exact Or.inl htail

theorem meterInv_add_end (ch : Nat) (t : duration) (m : LatencyMeter)
    (hInv : MeterInv m) :
    ∀ m', add_end_sample ch t m = some m' → MeterInv m' := by
  intro m' h
  cases hp : pushEnd ch t m.end_timestamps_per_channel with
  | none =>
    rw [add_end_sample, hp] at h
    cases h
  | some em =>
    obtain ⟨l₁, ts, l₂, hl, hk, hem⟩ := pushEnd_some_decomp ch t _ em hp
    rw [add_end_sample, hp, Option.map_some', Option.some_inj] at h
    by_cases hs : m.start_timestamps = []
    · rw [← h,
        update_latency_of_start_empty { m with end_timestamps_per_channel := em } hs]
      exact Or.inl hs
    · cases hscan : scanEnds 0 em with
      | none =>
        rw [← h,
          update_latency_of_scan_none { m with end_timestamps_per_channel := em } hscan]
        exact Or.inr ((scanEnds_eq_none_iff em 0).mp hscan)
      | some e =>
        have hnone_em : ¬ ∃ p ∈ em, p.2 = [] := by
          intro hx
          rw [(scanEnds_eq_none_iff em 0).mpr hx] at hscan
          cases hscan
        obtain ⟨p, hpmem, hpnil⟩ := hInv.resolve_left hs
        have hts : ts = [] := by
          rw [hl] at hpmem
          rcases List.mem_append.mp hpmem with hp1 | hp2
          · exact absurd ⟨p, by rw [hem]; exact List.mem_append_left _ hp1, hpnil⟩ hnone_em
          · rcases List.mem_cons.mp hp2 with hpeq | hp3
            · rw [hpeq] at hpnil
              exact hpnil
            · exact absurd ⟨p, by
                rw [hem]
                exact List.mem_append_right _ (List.mem_cons_of_mem _ hp3), hpnil⟩ hnone_em
        have hin : (ch, ts ++ [t]) ∈ em := by
          rw [hem]
          exact List.mem_append_right _ (List.mem_cons_self _ _)
        have hin_tail : (ch, ([] : List duration)) ∈ em.map (fun p => (p.1, p.2.tail)) := by
          have hmem := List.mem_map_of_mem (fun p : Nat × List duration => (p.1, p.2.tail)) hin
          rw [hts] at hmem
          exact hmem
        have hsne : ¬ ({ m with end_timestamps_per_channel := em }
            : LatencyMeter).start_timestamps.isEmpty = true := by
          simp [List.isEmpty_iff, hs]
        rw [← h, update_latency_fire _ hsne e hscan]
        exact Or.inr ⟨(ch, []), hin_tail, rfl⟩

theorem get_latency_buffers (clear : Bool) (m : LatencyMeter) :
    (get_latency clear m).2.start_timestamps = m.start_timestamps ∧
      (get_latency clear m).2.end_timestamps_per_channel = m.end_timestamps_per_channel := by
  by_cases h : m.latency_count = 0
  · simp [get_latency, h]
  · cases clear <;> simp [get_latency, h]

theorem meterInv_query (clear : Bool) (m : LatencyMeter) (hInv : MeterInv m) :
    MeterInv (get_latency clear m).2 := by
  obtain ⟨h1, h2⟩ := get_latency_buffers clear m
  unfold MeterInv
  rw [h1, h2]
  exact hInv

theorem meterNonneg_update_latency (m : LatencyMeter) (h : MeterNonnegEnds m) :
    MeterNonnegEnds (update_latency m) := by
  by_cases hs : m.start_timestamps.isEmpty
  · rw [update_latency_of_start_empty m (List.isEmpty_iff.mp hs)]
    exact h
  · cases hscan : scanEnds 0 m.end_timestamps_per_channel with
    | none =>
      rw [update_latency_of_scan_none m hscan]
      exact h
    | some e =>
      rw [update_latency_fire m hs e hscan]
      intro p hp x hx
      obtain ⟨q, hq, hpq⟩ := List.mem_map.mp hp
      rw [← hpq] at hx
      exact h q hq x (List.mem_of_mem_tail hx)

theorem meterNonneg_add_start (t : duration) (m : LatencyMeter)
    (h : MeterNonnegEnds m) : MeterNonnegEnds (add_start_sample t m) := by
  show MeterNonnegEnds (update_latency _)
  exact meterNonneg_update_latency _ h

theorem meterNonneg_add_end (ch : Nat) (t : duration) (m : LatencyMeter)
    (ht : 0 ≤ t) (h : MeterNonnegEnds m) :
    ∀ m', add_end_sample ch t m = some m' → MeterNonnegEnds m' := by
  intro m' hm
  obtain ⟨em, hem, hm'⟩ := Option.map_eq_some'.mp hm
  obtain ⟨l₁, ts, l₂, hl, _, hEm⟩ := pushEnd_some_decomp ch t _ em hem
  rw [← hm']
  apply meterNonneg_update_latency
  intro p hp x hx
  have hp' : p ∈ em := hp
  rw [hEm] at hp'
  rcases List.mem_append.mp hp' with h1 | h2
  · exact h p (by rw [hl]; exact List.mem_append_left _ h1) x hx
  · rcases List.mem_cons.mp h2 with h3 | h4
    · rw [h3] at hx
      rcases List.mem_append.mp hx with h5 | h6
      · exact h (ch, ts)
          (by rw [hl]; exact List.mem_append_right _ (List.mem_cons_self _ _)) x h5
      · rw [List.mem_singleton.mp h6]
        exact ht
    · exact h p (by rw [hl]; exact List.mem_append_right _ (List.mem_cons_of_mem _ h4)) x hx

theorem meterNonneg_query (clear : Bool) (m : LatencyMeter) (h : MeterNonnegEnds m) :
    MeterNonnegEnds (get_latency clear m).2 := by
  intro p hp x hx
  rw [(get_latency_buffers clear m).2] at hp
  exact h p hp x hx

theorem meterNonneg_make (cs : List Nat) (k : Nat) :
    MeterNonnegEnds (makeLatencyMeter cs k) := by
  intro p hp x hx
  have hp' : p ∈ cs.map (fun ch => (ch, ([] : List duration))) := hp
  obtain ⟨c, hc, hpc⟩ := List.mem_map.mp hp'
  rw [← hpc] at hx
  exact absurd hx (List.not_mem_nil x)

theorem loop_eq_add_start (t : duration) (m : LatencyMeter) (hInv : MeterInv m)
    (hne : m.end_timestamps_per_channel ≠ []) (hnn : MeterNonnegEnds m) :
    add_start_sample_loop t m = add_start_sample t m := by
  have hspec : scanEndsSpec m.end_timestamps_per_channel
      = scanEnds 0 m.end_timestamps_per_channel := scanEndsSpec_eq _ hne hnn
  by_cases hemp : ∃ p ∈ m.end_timestamps_per_channel, p.2 = []
  · have hscan : scanEnds 0 m.end_timestamps_per_channel = none :=
      (scanEnds_eq_none_iff _ 0).mpr hemp
    show update_latency_loop _ = update_latency _
    rw [update_latency_of_scan_none
          { m with start_timestamps := m.start_timestamps ++ [t] } hscan,
        update_latency_loop_of_spec_none
          { m with start_timestamps := m.start_timestamps ++ [t] } (hspec.trans hscan)]
  · have hstart : m.start_timestamps = [] := by
      rcases hInv with h | h
      · exact h
      · exact absurd h hemp
    cases hscan : scanEnds 0 m.end_timestamps_per_channel with
    | none => exact absurd ((scanEnds_eq_none_iff _ 0).mp hscan) hemp
    | some e =>
      have hsne : ¬ ({ m with start_timestamps := m.start_timestamps ++ [t] }
          : LatencyMeter).start_timestamps.isEmpty = true := by
        simp [hstart]
      have htail : (m.start_timestamps ++ [t]).tail = [] := by
        rw [hstart]
        rfl
      show update_latency_loop _ = update_latency _
      rw [update_latency_fire _ hsne e hscan,
          update_latency_loop_fire _ hsne e (hspec.trans hscan)]
      exact update_latency_loop_of_start_empty _ htail

theorem loop_eq_add_end (ch : Nat) (t : duration) (m : LatencyMeter)
    (hInv : MeterInv m) (hnn : MeterNonnegEnds m) (ht : 0 ≤ t) :
    add_end_sample_loop ch t m = add_end_sample ch t m := by
  cases hp : pushEnd ch t m.end_timestamps_per_channel with
  | none =>
    show (pushEnd ch t m.end_timestamps_per_channel).map _
        = (pushEnd ch t m.end_timestamps_per_channel).map _
    rw [hp]
    rfl
  | some em =>
    obtain ⟨l₁, ts, l₂, hl, hk, hem⟩ := pushEnd_some_decomp ch t _ em hp
    have hemne : em ≠ [] := by
      rw [hem]
      simp
    have hnn_em : ∀ p ∈ em, ∀ x ∈ p.2, 0 ≤ x := by
      intro p hpm x hx
      rw [hem] at hpm
      rcases List.mem_append.mp hpm with h1 | h2
      · exact hnn p (by rw [hl]; exact List.mem_append_left _ h1) x hx
      · rcases List.mem_cons.mp h2 with h3 | h4
        · rw [h3] at hx
          rcases List.mem_append.mp hx with h5 | h6
          · exact hnn (ch, ts)
              (by rw [hl]; exact List.mem_append_right _ (List.mem_cons_self _ _)) x h5
          · rw [List.mem_singleton.mp h6]
            exact ht
        · exact hnn p
            (by rw [hl]; exact List.mem_append_right _ (List.mem_cons_of_mem _ h4)) x hx
    have hspec : scanEndsSpec em = scanEnds 0 em := scanEndsSpec_eq em hemne hnn_em
    by_cases hs : m.start_timestamps = []
    · show (pushEnd ch t m.end_timestamps_per_channel).map _
          = (pushEnd ch t m.end_timestamps_per_channel).map _
      rw [hp, Option.map_some', Option.map_some',
          update_latency_of_start_empty { m with end_timestamps_per_channel := em } hs,
          update_latency_loop_of_start_empty { m with end_timestamps_per_channel := em } hs]
    · cases hscan : scanEnds 0 em with
      | none =>
        show (pushEnd ch t m.end_timestamps_per_channel).map _
            = (pushEnd ch t m.end_timestamps_per_channel).map _
        rw [hp, Option.map_some', Option.map_some',
            update_latency_of_scan_none { m with end_timestamps_per_channel := em } hscan,
            update_latency_loop_of_spec_none { m with end_timestamps_per_channel := em }
              (hspec.trans hscan)]
      | some e =>
        have hnone_em : ¬ ∃ p ∈ em, p.2 = [] := by
          intro hx
          rw [(scanEnds_eq_none_iff em 0).mpr hx] at hscan
          cases hscan
        obtain ⟨p, hpmem, hpnil⟩ := hInv.resolve_left hs
        have hts : ts = [] := by
          rw [hl] at hpmem
          rcases List.mem_append.mp hpmem with hp1 | hp2
          · exact absurd ⟨p, by rw [hem]; exact List.mem_append_left _ hp1, hpnil⟩ hnone_em
          · rcases List.mem_cons.mp hp2 with hpeq | hp3
            · rw [hpeq] at hpnil
              exact hpnil
            · exact absurd ⟨p, by
                rw [hem]
                exact List.mem_append_right _ (List.mem_cons_of_mem _ hp3), hpnil⟩ hnone_em
        have hin : (ch, ts ++ [t]) ∈ em := by
          rw [hem]
          exact List.mem_append_right _ (List.mem_cons_self _ _)
        have hin_tail : (ch, ([] : List duration)) ∈ em.map (fun p => (p.1, p.2.tail)) := by
          have hmem := List.mem_map_of_mem (fun p : Nat × List duration => (p.1, p.2.tail)) hin
          rw [hts] at hmem
          exact hmem
        have hsne : ¬ ({ m with end_timestamps_per_channel := em }
            : LatencyMeter).start_timestamps.isEmpty = true := by
          simp [List.isEmpty_iff, hs]
        have hspec_tail : scanEndsSpec (em.map (fun p => (p.1, p.2.tail))) = none :=
          scanEndsSpec_of_empty_entry _ ⟨(ch, []), hin_tail, rfl⟩
        show (pushEnd ch t m.end_timestamps_per_channel).map _
            = (pushEnd ch t m.end_timestamps_per_channel).map _
        rw [hp, Option.map_some', Option.map_some',
            update_latency_fire _ hsne e hscan,
            update_latency_loop_fire _ hsne e (hspec.trans hscan)]
        refine congrArg some ?_
        apply update_latency_loop_of_spec_none
        exact hspec_tail

theorem runMeter_inv :
    ∀ (ops : List MeterOp) (m : LatencyMeter), MeterInv m →
      ∀ m', runMeter ops m = some m' → MeterInv m' := by
  intro ops
  induction ops with
  | nil =>
    intro m hInv m' h
    exact (Option.some_inj.mp h) ▸ hInv
  | cons op rest ih =>
    intro m hInv m' h
    cases op with
    | addStart t => exact ih _ (meterInv_add_start t m hInv) m' h
    | addEnd ch t =>
      obtain ⟨m₁, hm₁, hrest⟩ := Option.bind_eq_some.mp h
      exact ih m₁ (meterInv_add_end ch t m hInv m₁ hm₁) m' hrest
    | query clear => exact ih _ (meterInv_query clear m hInv) m' h

theorem runMeterLoop_eq_runMeter (cs : List Nat) (hcs : cs ≠ []) :
    ∀ (ops : List MeterOp) (m : LatencyMeter),
      (∀ c t, MeterOp.addEnd c t ∈ ops → 0 ≤ t) →
      MeterInv m → MeterNonnegEnds m → meterKeys m = cs →
      runMeterLoop ops m = runMeter ops m := by
  intro ops
  induction ops with
  | nil => intro m _ _ _ _; rfl
  | cons op rest ih =>
    intro m hv hInv hnn hkeys
    have hne : m.end_timestamps_per_channel ≠ [] := by
      intro h0
      apply hcs
      rw [← hkeys]
      show m.end_timestamps_per_channel.map Prod.fst = []
      rw [h0]
      rfl
    cases op with
    | addStart t =>
      show runMeterLoop rest (add_start_sample_loop t m)
          = runMeter rest (add_start_sample t m)
      rw [loop_eq_add_start t m hInv hne hnn]
      exact ih _ (fun c t' hm => hv c t' (List.mem_cons_of_mem _ hm))
        (meterInv_add_start t m hInv) (meterNonneg_add_start t m hnn)
        ((meterKeys_add_start t m).trans hkeys)
    | addEnd ch t =>
      have ht : 0 ≤ t := hv ch t (List.mem_cons_self _ _)
      show (add_end_sample_loop ch t m).bind (runMeterLoop rest)
          = (add_end_sample ch t m).bind (runMeter rest)
      rw [loop_eq_add_end ch t m hInv hnn ht]
      cases hm : add_end_sample ch t m with
      | none => rfl
      | some m₁ =>
        show runMeterLoop rest m₁ = runMeter rest m₁
        exact ih m₁ (fun c t' hm' => hv c t' (List.mem_cons_of_mem _ hm'))
          (meterInv_add_end ch t m hInv m₁ hm)
          (meterNonneg_add_end ch t m ht hnn m₁ hm)
          ((meterKeys_add_end ch t m m₁ hm).1.trans hkeys)
    | query clear =>
      show runMeterLoop rest (get_latency clear m).2
          = runMeter rest (get_latency clear m).2
      exact ih _ (fun c t' hm => hv c t' (List.mem_cons_of_mem _ hm))
        (meterInv_query clear m hInv) (meterNonneg_query clear m hnn)
        ((meterKeys_get_latency clear m).trans hkeys)
/-! The claims. -/

/-- Claim C1, counterexample to the claim as stated: on a meter with channel
set `{0}`, the trace `add_start_sample(-10ns); add_end_sample(0, -5ns)`
produces one matched sample, and the code accumulates `latency_sum = 10` —
not `(-5) - (-10) = 5`, the value required by "(maximum over channels of the
end timestamp) minus the start timestamp" — because `update_latency` seeds
its maximum with `duration end(0)`. -/
theorem claim_C1_counterexample :
    (runMeter [MeterOp.addStart (-10), MeterOp.addEnd 0 (-5)]
        (makeLatencyMeter [0] 8)).map (fun m => (m.latency_count, m.latency_sum))
      = some (1, 10) ∧ ¬ ((10 : duration) = (-5) - (-10)) := by
  constructor
  · rfl
  · decide

/-- Claim C1 (amended): for every sequence of `add_start_sample` and
`add_end_sample` calls on a meter constructed with a non-empty channel set
(no overflow, no intervening clear), after the sequence produces `N` matched
samples, `latency_count = N` and `latency_sum` is the sum over those samples
of `(max of 0 and the channels' end timestamps) - start` — i.e. the claim's
formula with the code's zero-seeded maximum (for non-negative end
timestamps the two coincide). -/
theorem claim_C1_matched_samples (cs : List Nat) (k : Nat) (ops : List MeterOp)
    (m : LatencyMeter) (hne : cs ≠ []) (hnd : cs.Nodup)
    (hq : ∀ op ∈ ops, op.isQuery = false)
    (hrun : runMeter ops (makeLatencyMeter cs k) = some m) :
    m.latency_count = matchedN cs (startsOf ops) (fun c => endsOf c ops) ∧
      m.latency_sum = sumSamples cs (startsOf ops) (fun c => endsOf c ops)
        (matchedN cs (startsOf ops) (fun c => endsOf c ops)) := by
  have hv : ∀ c t, MeterOp.addEnd c t ∈ ops → c ∈ cs := by
    intro c t hmem
    have h := (runMeter_some_keys ops _ m hrun).2 c t hmem
    rw [meterKeys_make] at h
    exact h
  have hrun' := runMeter_make cs hnd k ops hv hq
  rw [hrun] at hrun'
  rw [Option.some_inj.mp hrun']
  exact ⟨rfl, rfl⟩

/-- Claim C1, witness: the amended theorem applied to the §8 scenario
(channels `{7, 9}`, three matched samples). -/
theorem claim_C1_matched_samples_witness :
    meterScenario.latency_count
        = matchedN [7, 9] (startsOf opsScenario) (fun c => endsOf c opsScenario) ∧
      meterScenario.latency_sum
        = sumSamples [7, 9] (startsOf opsScenario) (fun c => endsOf c opsScenario)
            (matchedN [7, 9] (startsOf opsScenario) (fun c => endsOf c opsScenario)) :=
  claim_C1_matched_samples [7, 9] 8 opsScenario meterScenario
    (by decide) (by decide) (by decide) (by decide)

/-- For `0 ≤ s < 2^63` the unsigned-common-type division performed by
`get_latency` coincides with plain truncating division. -/
theorem uint64_div_eq_tdiv (s : Int) (n : Nat) (h0 : 0 ≤ s) (h1 : s < 2 ^ 63) :
    ofUInt64Rep (toUInt64Rep s / n) = Int.tdiv s (Int.ofNat n) := by
  obtain ⟨a, rfl⟩ : ∃ a : Nat, s = (a : Int) := ⟨s.toNat, (Int.toNat_of_nonneg h0).symm⟩
  have ha : a < 2 ^ 63 := by exact_mod_cast h1
  have h64 : (a : Int) < (2 : Int) ^ 64 := lt_trans h1 (by norm_num)
  have hmod : (a : Int) % (2 : Int) ^ 64 = (a : Int) := Int.emod_eq_of_lt h0 h64
  have hqlt : a / n < 2 ^ 63 := lt_of_le_of_lt (Nat.div_le_self _ _) ha
  unfold toUInt64Rep ofUInt64Rep
  rw [hmod, Int.toNat_natCast, if_pos hqlt]
  rfl

/-- Claim C2, counterexample to the claim as stated: the reachable state
with `latency_sum = -190 ns`, `latency_count = 2` (starts 100, 200 ns with
ends 50, 60 ns on channel 0).  The C++ divides `chrono::nanoseconds`
(rep `int64_t`) by `size_t` in their common type `uint64_t` on 64-bit
targets, so the program returns `int64(uint64(-190) / 2)
= 9223372036854775713` ns — not `latency_sum / latency_count = -95 ns`
(`-190 / 2` is `-95` under truncating, flooring and Euclidean division
alike). -/
theorem claim_C2_counterexample :
    (runMeter [MeterOp.addStart 100, MeterOp.addEnd 0 50,
        MeterOp.addStart 200, MeterOp.addEnd 0 60] (makeLatencyMeter [0] 8)).map
        (fun m => (m.latency_sum, m.latency_count, (get_latency false m).1))
      = some (-190, 2, some 9223372036854775713) ∧
      ¬ ((9223372036854775713 : duration) = Int.tdiv (-190) 2) ∧
      ¬ ((9223372036854775713 : duration) = Int.fdiv (-190) 2) ∧
      ¬ ((9223372036854775713 : duration) = Int.ediv (-190) 2) := by
  exact ⟨by decide, by decide, by decide, by decide⟩

/-- Claim C2 (amended): `get_latency(clear)` fails with not-available
exactly when `latency_count == 0`; otherwise it returns the quotient that
C++ computes in the unsigned common type of `int64_t` and `size_t`,
`int64(uint64(latency_sum) / latency_count)` — which equals the plain
truncating quotient `latency_sum / latency_count` whenever
`0 ≤ latency_sum < 2^63`, in particular for genuine monotonic-clock
timestamps.  The successful `clear = true` call resets both accumulators
on the same call, and `clear = false` leaves the state unchanged. -/
theorem claim_C2_get_latency (m : LatencyMeter) (clear : Bool) :
    ((get_latency clear m).1 = none ↔ m.latency_count = 0) ∧
      (m.latency_count ≠ 0 → (get_latency clear m).1
          = some (ofUInt64Rep (toUInt64Rep m.latency_sum / m.latency_count))) ∧
      (0 ≤ m.latency_sum → m.latency_sum < 2 ^ 63 → m.latency_count ≠ 0 →
        (get_latency clear m).1
          = some (Int.tdiv m.latency_sum (Int.ofNat m.latency_count))) ∧
      (m.latency_count ≠ 0 → (get_latency true m).2
          = { m with latency_sum := 0, latency_count := 0 }) ∧
      (get_latency false m).2 = m := by
  refine ⟨?_, ?_, ?_, ?_, ?_⟩
  · by_cases h : m.latency_count = 0 <;> simp [get_latency, h]
  · intro h
    simp [get_latency, h]
  · intro h0 h1 h
    have hq : (get_latency clear m).1
        = some (ofUInt64Rep (toUInt64Rep m.latency_sum / m.latency_count)) := by
      simp [get_latency, h]
    rw [hq, uint64_div_eq_tdiv m.latency_sum m.latency_count h0 h1]
  · intro h
    simp [get_latency, h]
  · by_cases h : m.latency_count = 0 <;> simp [get_latency, h]

/-- Claim C2, witness: the amended theorem applied to the state with
`latency_sum = 250`, `latency_count = 3`. -/
theorem claim_C2_get_latency_witness :
    (get_latency true meterScenario).1
        = some (Int.tdiv meterScenario.latency_sum (Int.ofNat meterScenario.latency_count)) ∧
      (get_latency true meterScenario).2
        = { meterScenario with latency_sum := 0, latency_count := 0 } :=
  ⟨(claim_C2_get_latency meterScenario true).2.2.1 (by decide) (by decide) (by decide),
   (claim_C2_get_latency meterScenario true).2.2.2.1 (by decide)⟩

/-- Claim C3: `add_end_sample` on a channel outside the constructor-supplied
set fails (the `assert` / `at` fires before any mutation, modelled as
`none`, so no successor state exists and the meter is unchanged). -/
theorem claim_C3_unknown_channel (cs : List Nat) (k : Nat) (ops : List MeterOp)
    (m : LatencyMeter) (hrun : runMeter ops (makeLatencyMeter cs k) = some m)
    (c : Nat) (hc : c ∉ cs) (t : duration) :
    add_end_sample c t m = none := by
  have hkeys : meterKeys m = cs := by
    rw [(runMeter_some_keys ops _ m hrun).1, meterKeys_make]
  show (pushEnd c t m.end_timestamps_per_channel).map _ = none
  rw [pushEnd_eq_none_of_not_mem c t _ (fun hmem => hc (hkeys ▸ hmem))]
  rfl

/-- Claim C3, witness: channel 2 is rejected on a fresh meter with channel
set `{1}`. -/
theorem claim_C3_unknown_channel_witness :
    add_end_sample 2 5 (makeLatencyMeter [1] 4) = none :=
  claim_C3_unknown_channel [1] 4 [] (makeLatencyMeter [1] 4) rfl 2 (by decide) 5

theorem nonneg_of_all_hasNonnegEnd (ops : List MeterOp)
    (h : ∀ op ∈ ops, op.hasNonnegEnd = true) :
    ∀ c t, MeterOp.addEnd c t ∈ ops → 0 ≤ t := by
  intro c t hm
  have hx := h _ hm
  simpa [MeterOp.hasNonnegEnd] using hx

/-- Claim C4, counterexample to the claim as stated: with channel set
`{0}` and the trace `add_start_sample(-10ns); add_end_sample(0, -5ns)`,
the spec's looping algorithm (whose per-sample latency is the bare
`(max over channels of end_front) - start_front`) accumulates
`latency_sum = (-5) - (-10) = 5`, while the implementation's single-pass
`update_latency` (maximum seeded with `duration end(0)`) accumulates 10:
the final sums differ, so the claimed equivalence fails. -/
theorem claim_C4_counterexample :
    (runMeterLoop [MeterOp.addStart (-10), MeterOp.addEnd 0 (-5)]
        (makeLatencyMeter [0] 8)).map (fun m => (m.latency_sum, m.latency_count))
      = some (5, 1) ∧
      (runMeter [MeterOp.addStart (-10), MeterOp.addEnd 0 (-5)]
        (makeLatencyMeter [0] 8)).map (fun m => (m.latency_sum, m.latency_count))
      = some (10, 1) ∧
      ¬ (((5 : duration), (1 : Nat)) = ((10 : duration), (1 : Nat))) := by
  have h1 : add_start_sample_loop (-10) (makeLatencyMeter [0] 8)
      = { start_timestamps := [-10], end_timestamps_per_channel := [(0, [])],
          latency_count := 0, latency_sum := 0 } :=
    update_latency_loop_of_spec_none _ rfl
  have h2 : update_latency_loop
      { start_timestamps := [-10], end_timestamps_per_channel := [(0, [(-5 : duration)])],
        latency_count := 0, latency_sum := 0 }
      = { start_timestamps := [], end_timestamps_per_channel := [(0, [])],
          latency_count := 1, latency_sum := 5 } := by
    rw [update_latency_loop_fire
        { start_timestamps := [-10], end_timestamps_per_channel := [(0, [(-5 : duration)])],
          latency_count := 0, latency_sum := 0 } (by decide) (-5) rfl]
    exact (update_latency_loop_of_start_empty _ rfl).trans (by decide)
  have hrun : runMeterLoop [MeterOp.addStart (-10), MeterOp.addEnd 0 (-5)]
      (makeLatencyMeter [0] 8)
      = some ({ start_timestamps := []
                end_timestamps_per_channel := [(0, [])]
                latency_count := 1
                latency_sum := 5 } : LatencyMeter) := by
    show runMeterLoop [MeterOp.addEnd 0 (-5)]
        (add_start_sample_loop (-10) (makeLatencyMeter [0] 8)) = _
    rw [h1]
    show some (update_latency_loop
        { start_timestamps := [-10], end_timestamps_per_channel := [(0, [(-5 : duration)])],
          latency_count := 0, latency_sum := 0 }) = _
    rw [h2]
  refine ⟨?_, by decide, by decide⟩
  rw [hrun]
  rfl

/-- Claim C4 (amended): for a meter with a non-empty channel set fed only
non-negative end timestamps (genuine monotonic-clock values), the
implementation's single-pass `update_latency` yields exactly the same
final `latency_sum` and `latency_count` as the spec's looping algorithm,
on every call sequence; the restriction on end timestamps is forced
because the code seeds each sample's maximum with 0 where the spec takes
the bare maximum over the channel fronts. -/
theorem claim_C4_loop_agreement (cs : List Nat) (k : Nat) (ops : List MeterOp)
    (hcs : cs ≠ []) (hnn : ∀ c t, MeterOp.addEnd c t ∈ ops → 0 ≤ t) :
    (runMeterLoop ops (makeLatencyMeter cs k)).map
        (fun m => (m.latency_sum, m.latency_count))
      = (runMeter ops (makeLatencyMeter cs k)).map
          (fun m => (m.latency_sum, m.latency_count)) := by
  rw [runMeterLoop_eq_runMeter cs hcs ops (makeLatencyMeter cs k) hnn
        (Or.inl rfl) (meterNonneg_make cs k) (meterKeys_make cs k)]

/-- Claim C4, witness: the amended theorem applied to the §8 scenario. -/
theorem claim_C4_loop_agreement_witness :
    (runMeterLoop opsScenario (makeLatencyMeter [7, 9] 8)).map
        (fun m => (m.latency_sum, m.latency_count))
      = (runMeter opsScenario (makeLatencyMeter [7, 9] 8)).map
          (fun m => (m.latency_sum, m.latency_count)) :=
  claim_C4_loop_agreement [7, 9] 8 opsScenario (by decide)
    (nonneg_of_all_hasNonnegEnd opsScenario (by decide))

/-- Claim C5: the §8 latency-correlation scenario — channels `{7, 9}`,
capacity 8, starts 100, 200, 300 ns, ends 150, 280, 360 on channel 7 and
170, 260, 400 on channel 9 — yields `latency_count = 3`,
`latency_sum = 250` ns and `get_latency = 250 / 3 = 83` ns. -/
theorem claim_C5_correlation_scenario :
    (runMeter opsScenario (makeLatencyMeter [7, 9] 8)).map
        (fun m => (m.latency_count, m.latency_sum, (get_latency false m).1))
      = some (3, 250, some 83) := by
  decide

/-- Claim C6: the key set of the per-channel end-timestamp map equals the
constructor-supplied output channel set after any sequence of
`add_start_sample`, `add_end_sample` and `get_latency` calls. -/
theorem claim_C6_channel_set_immutable (cs : List Nat) (k : Nat) (ops : List MeterOp)
    (m : LatencyMeter) (hrun : runMeter ops (makeLatencyMeter cs k) = some m) :
    meterKeys m = cs := by
  rw [(runMeter_some_keys ops _ m hrun).1, meterKeys_make]

/-- Claim C6, witness: the key set `{7, 9}` survives the §8 scenario
followed by a `get_latency` query. -/
theorem claim_C6_channel_set_immutable_witness : meterKeys meterScenario = [7, 9] :=
  claim_C6_channel_set_immutable [7, 9] 8 (opsScenario ++ [MeterOp.query false])
    meterScenario (by decide)

/-- Claim C7: the scheduler's default per-network switch timeout is 0 ms
("never time out") and its default minimum threshold is 1, satisfying the
spec's lower bound of at least 1. -/
theorem claim_C7_scheduler_defaults :
    DEFAULT_SCHEDULER_TIMEOUT = 0 ∧ 1 ≤ DEFAULT_SCHEDULER_MIN_THRESHOLD := by
  decide

/-- Claim C8: after every completed call on a meter reachable from the
constructor, either the start buffer is empty or some channel's end buffer
is empty — no fully matchable sample set is left unconsumed. -/
theorem claim_C8_no_unconsumed_match (cs : List Nat) (k : Nat) (ops : List MeterOp)
    (m : LatencyMeter) (hrun : runMeter ops (makeLatencyMeter cs k) = some m) :
    m.start_timestamps = [] ∨ ∃ p ∈ m.end_timestamps_per_channel, p.2 = [] :=
  runMeter_inv ops _ (Or.inl rfl) m hrun

/-- Claim C8, witness: the invariant at the state reached after a single
start sample on a meter with channel set `{1}`. -/
theorem claim_C8_no_unconsumed_match_witness :
    meterAfterStart.start_timestamps = []
      ∨ ∃ p ∈ meterAfterStart.end_timestamps_per_channel, p.2 = [] :=
  claim_C8_no_unconsumed_match [1] 4 [MeterOp.addStart 5] meterAfterStart (by decide)

/-- Claim C9: `get_latency false` never changes the state (so two
consecutive queries agree), and a failing `get_latency true` (zero count)
returns not-available with the state unchanged. -/
theorem claim_C9_query_pure (m : LatencyMeter) :
    (get_latency false m).2 = m ∧
      (get_latency false ((get_latency false m).2)).1 = (get_latency false m).1 ∧
      (m.latency_count = 0 → get_latency true m = (none, m)) := by
  have h2 : (get_latency false m).2 = m := by
    by_cases h : m.latency_count = 0 <;> simp [get_latency, h]
  refine ⟨h2, by rw [h2], ?_⟩
  intro h
  simp [get_latency, h]

/-- Claim C9, witness: the theorem applied to a fresh meter (count 0). -/
theorem claim_C9_query_pure_witness :
    (get_latency false (makeLatencyMeter [3] 2)).2 = makeLatencyMeter [3] 2 ∧
      get_latency true (makeLatencyMeter [3] 2) = (none, makeLatencyMeter [3] 2) :=
  ⟨(claim_C9_query_pure (makeLatencyMeter [3] 2)).1,
   (claim_C9_query_pure (makeLatencyMeter [3] 2)).2.2 (by decide)⟩

/-- Claim C10: a freshly constructed scheduler has current and next handles
equal to INVALID (`UINT32_MAX`), `forced_idle = false`, the batch-transfer
flag false, and the is-switching and has-current-group-finished flags both
already true. -/
theorem claim_C10_scheduler_initial_state (algorithm : hailo_scheduling_algorithm_t) :
    (makeNetworkGroupScheduler algorithm).m_current_network_group
        = INVALID_NETWORK_GROUP_HANDLE ∧
      (makeNetworkGroupScheduler algorithm).m_next_network_group
        = INVALID_NETWORK_GROUP_HANDLE ∧
      INVALID_NETWORK_GROUP_HANDLE = 2 ^ 32 - 1 ∧
      (makeNetworkGroupScheduler algorithm).m_forced_idle_state = false ∧
      (makeNetworkGroupScheduler algorithm).m_is_currently_transferring_batch = false ∧
      (makeNetworkGroupScheduler algorithm).m_is_switching_network_group = true ∧
      (makeNetworkGroupScheduler algorithm).m_has_current_ng_finished = true :=
  ⟨rfl, rfl, by decide, rfl, rfl, rfl, rfl⟩
